import Mathlib

/-!
Verification of the BIONIC training orchestration core (`bionic/train.py`)
against its design specification.

Loss values are modelled as rationals (`Rat`); parameter snapshots are
modelled abstractly.  Each section embeds one piece of `Trainer` and proves
the corresponding spec properties.
-/

set_option autoImplicit false

namespace Bionic

/-! ## Best-snapshot tracking (`Trainer.train`, epoch-end checkpoint)

The Python loop keeps `best_loss` (initially `None`) and `best_state`
(initially `None`) and, after each epoch with total loss `L`, executes

    if not best_loss or sum(epoch_losses) < best_loss:
        best_loss = sum(epoch_losses)
        state = {"epoch": epoch + 1, "state_dict": ..., "best_loss": best_loss}
        best_state = state

Note `not best_loss` is Python truthiness: it is `True` both when
`best_loss` is `None` and when it is `0.0`.
-/

/-- The best snapshot stored by `Trainer.train`: a 1-based epoch number and
the loss value at that epoch (the captured `state_dict` is not relevant to
the loss/epoch bookkeeping and is omitted). -/
structure BestState where
  epoch : Nat
  best_loss : Rat
  deriving DecidableEq

/-- The guard `not best_loss or total < best_loss` of the snapshot update:
`not best_loss` is true when `best_loss` is `None` or exactly `0`. -/
def bestUpdateCond (bl : Option Rat) (total : Rat) : Bool :=
  match bl with
  | none => true
  | some b => b == 0 || decide (total < b)

/-- One epoch-end snapshot update at (0-based) epoch `e` with epoch total
loss `total`, acting on the pair `(best_loss, best_state)`. -/
def bestStep (e : Nat) (total : Rat) :
    Option Rat × Option BestState → Option Rat × Option BestState
  | (bl, bs) =>
    if bestUpdateCond bl total then (some total, some ⟨e + 1, total⟩) else (bl, bs)

/-- The epoch loop's snapshot bookkeeping over a list of epoch total losses,
starting from epoch counter `e`. -/
def bestLoop : Nat → Option Rat × Option BestState → List Rat → Option Rat × Option BestState
  | _, st, [] => st
  | e, st, L :: rest => bestLoop (e + 1) (bestStep e L st) rest

/-- Snapshot bookkeeping of a whole run of `Trainer.train` with epoch total
losses `losses` (epoch counter starts at 0, state starts at `(None, None)`). -/
def trainBest (losses : List Rat) : Option Rat × Option BestState :=
  bestLoop 0 (none, none) losses

/-- Minimum of a list of losses (`0` on the empty list, which never arises). -/
def listMin : List Rat → Rat
  | [] => 0
  | x :: xs => xs.foldl min x

/-- Index (0-based) of the first element achieving the minimum. -/
def firstMinIdx (l : List Rat) : Nat :=
  l.findIdx (fun x => x == listMin l)

theorem listMin_cons (x : Rat) (xs : List Rat) : listMin (x :: xs) = xs.foldl min x := rfl

theorem foldl_min_le_init (xs : List Rat) : ∀ a : Rat, xs.foldl min a ≤ a := by
  induction xs with
  | nil => intro a; exact le_refl a
  | cons y ys ih =>
    intro a
    calc (y :: ys).foldl min a = ys.foldl min (min a y) := rfl
    _ ≤ min a y := ih (min a y)
    _ ≤ a := min_le_left a y

theorem foldl_min_le_mem (xs : List Rat) :
    ∀ a : Rat, ∀ x ∈ xs, xs.foldl min a ≤ x := by
  induction xs with
  | nil => intro a x hx; cases hx
  | cons y ys ih =>
    intro a x hx
    rcases List.mem_cons.mp hx with h | h
    · subst h
      calc (x :: ys).foldl min a = ys.foldl min (min a x) := rfl
      _ ≤ min a x := foldl_min_le_init ys (min a x)
      _ ≤ x := min_le_right a x
    · exact ih (min a y) x h

theorem listMin_le {l : List Rat} {x : Rat} (hx : x ∈ l) : listMin l ≤ x := by
  cases l with
  | nil => cases hx
  | cons y ys =>
    rcases List.mem_cons.mp hx with h | h
    · subst h; exact foldl_min_le_init ys x
    · exact foldl_min_le_mem ys y x h

theorem foldl_min_mem (xs : List Rat) : ∀ a : Rat, xs.foldl min a = a ∨ xs.foldl min a ∈ xs := by
  induction xs with
  | nil => intro a; exact Or.inl rfl
  | cons y ys ih =>
    intro a
    rcases ih (min a y) with h | h
    · rcases min_cases a y with ⟨hm, _⟩ | ⟨hm, _⟩
      · exact Or.inl (by rw [show (y :: ys).foldl min a = ys.foldl min (min a y) from rfl, h, hm])
      · exact Or.inr (by
          rw [show (y :: ys).foldl min a = ys.foldl min (min a y) from rfl, h, hm]
          exact List.mem_cons_self y ys)
    · exact Or.inr (List.mem_cons_of_mem y h)

theorem listMin_mem {l : List Rat} (h : l ≠ []) : listMin l ∈ l := by
  cases l with
  | nil => exact absurd rfl h
  | cons y ys =>
    rcases foldl_min_mem ys y with h' | h'
    · rw [listMin_cons, h']; exact List.mem_cons_self y ys
    · exact List.mem_cons_of_mem y h'

theorem foldl_min_append_single (xs : List Rat) :
    ∀ a L : Rat, (xs ++ [L]).foldl min a = min (xs.foldl min a) L := by
  induction xs with
  | nil => intro a L; rfl
  | cons y ys ih => intro a L; exact ih (min a y) L

theorem listMin_append_single (x : Rat) (xs : List Rat) (L : Rat) :
    listMin (x :: xs ++ [L]) = min (listMin (x :: xs)) L := by
  show (xs ++ [L]).foldl min x = min (xs.foldl min x) L
  exact foldl_min_append_single xs x L

theorem bestLoop_append (e : Nat) (st : Option Rat × Option BestState) (l : List Rat) (L : Rat) :
    bestLoop e st (l ++ [L]) = bestStep (e + l.length) L (bestLoop e st l) := by
  induction l generalizing e st with
  | nil => simp [bestLoop]
  | cons x xs ih =>
    show bestLoop (e + 1) (bestStep e x st) (xs ++ [L]) = _
    rw [ih]
    have harith : e + 1 + xs.length = e + (x :: xs).length := by
      simp [List.length_cons]; omega
    rw [harith]
    rfl

theorem findIdx_append_of_none {α : Type} (p : α → Bool) (l1 l2 : List α)
    (h : ∀ x ∈ l1, p x = false) :
    (l1 ++ l2).findIdx p = l1.length + l2.findIdx p := by
  induction l1 with
  | nil => simp
  | cons a l ih =>
    have ha : p a = false := h a (List.mem_cons_self a l)
    show ((a :: (l ++ l2)).findIdx p) = _
    rw [List.findIdx_cons, ha]
    rw [ih (fun x hx => h x (List.mem_cons_of_mem a hx))]
    simp [List.length_cons]
    omega

theorem findIdx_append_of_found {α : Type} (p : α → Bool) (l1 l2 : List α)
    (h : l1.findIdx p < l1.length) :
    (l1 ++ l2).findIdx p = l1.findIdx p := by
  induction l1 with
  | nil => simp at h
  | cons a l ih =>
    show ((a :: (l ++ l2)).findIdx p) = _
    rw [List.findIdx_cons, List.findIdx_cons]
    cases hpa : p a with
    | true => rfl
    | false =>
      simp only [cond_false]
      rw [List.findIdx_cons, hpa] at h
      simp only [cond_false, List.length_cons] at h
      rw [ih (by omega)]

theorem trainBest_eq :
    ∀ losses : List Rat, losses ≠ [] → (∀ L ∈ losses, L ≠ 0) →
      trainBest losses =
        (some (listMin losses), some ⟨firstMinIdx losses + 1, listMin losses⟩) := by
  intro losses
  induction losses using List.reverseRecOn with
  | nil => intro h; exact absurd rfl h
  | append_singleton l L ih =>
    intro _ hz
    rw [trainBest, bestLoop_append 0 (none, none) l L]
    cases l with
    | nil =>
      simp [bestStep, bestUpdateCond, listMin, firstMinIdx, List.findIdx_cons, trainBest,
        bestLoop]
    | cons x xs =>
      have hmem : listMin (x :: xs) ∈ x :: xs := listMin_mem (by simp)
      have hm0 : listMin (x :: xs) ≠ 0 := hz _ (List.mem_append_left [L] hmem)
      rw [show trainBest (x :: xs) = bestLoop 0 (none, none) (x :: xs) from rfl] at ih
      rw [ih (by simp) (fun y hy => hz y (List.mem_append_left [L] hy))]
      have hcond : bestUpdateCond (some (listMin (x :: xs))) L = decide (L < listMin (x :: xs)) := by
        show (listMin (x :: xs) == 0 || decide (L < listMin (x :: xs))) = _
        rw [beq_eq_false_iff_ne.mpr hm0]
        simp
      by_cases hLm : L < listMin (x :: xs)
      · have h1 : listMin (x :: xs ++ [L]) = L := by
          rw [listMin_append_single]
          exact min_eq_right (le_of_lt hLm)
        have h2 : firstMinIdx (x :: xs ++ [L]) = (x :: xs).length := by
          unfold firstMinIdx
          rw [h1]
          rw [show (x :: xs ++ [L]) = (x :: xs) ++ [L] from rfl]
          rw [findIdx_append_of_none]
          · simp [List.findIdx_cons]
          · intro y hy
            have : L < y := lt_of_lt_of_le hLm (listMin_le hy)
            exact beq_eq_false_iff_ne.mpr (ne_of_gt this)
        rw [bestStep, hcond]
        simp only [decide_eq_true_eq, hLm, if_true, Nat.zero_add]
        rw [h1, h2]
      · have h1 : listMin (x :: xs ++ [L]) = listMin (x :: xs) := by
          rw [listMin_append_single]
          exact min_eq_left (le_of_not_lt hLm)
        have h2 : firstMinIdx (x :: xs ++ [L]) = firstMinIdx (x :: xs) := by
          unfold firstMinIdx
          rw [h1]
          rw [show (x :: xs ++ [L]) = (x :: xs) ++ [L] from rfl]
          exact findIdx_append_of_found _ _ _
            (List.findIdx_lt_length_of_exists ⟨_, hmem, beq_self_eq_true _⟩)
        rw [bestStep, hcond]
        simp only [decide_eq_true_eq, hLm, if_false]
        rw [h1, h2]

/-- C1 (amended): after epoch `k` of `Trainer.train`, the stored best loss is
`min(L0..Lk)` and the stored epoch is one more than the 0-based index of the
first epoch achieving that minimum, PROVIDED no epoch total loss equals zero
(the guard `not best_loss` treats a stored best loss of exactly `0` as unset,
so a zero loss would be overwritten by any later epoch). -/
theorem C1_best_snapshot (losses : List Rat) (k : Nat) (hk : k < losses.length)
    (hz : ∀ L ∈ losses, L ≠ 0) :
    trainBest (losses.take (k + 1)) =
      (some (listMin (losses.take (k + 1))),
       some ⟨firstMinIdx (losses.take (k + 1)) + 1, listMin (losses.take (k + 1))⟩) := by
  apply trainBest_eq
  · have hlen : (losses.take (k + 1)).length = k + 1 := by
      rw [List.length_take]; omega
    intro h
    rw [h] at hlen
    simp at hlen
  · intro L hL
    exact hz L (List.take_subset (k + 1) losses hL)

/-- C1 witness: the amended theorem applied to the run [3, 2, 2]: the best
snapshot after epoch 2 is loss 2, first achieved at (1-based) epoch 2. -/
theorem C1_best_snapshot_witness : trainBest [(3 : Rat), 2, 2] = (some 2, some ⟨2, 2⟩) := by
  have h := C1_best_snapshot [(3 : Rat), 2, 2] 2 (by decide) (by decide)
  rw [show ([(3 : Rat), 2, 2].take (2 + 1)) = [(3 : Rat), 2, 2] from rfl] at h
  rw [h]
  decide

/-- C1 counterexample: with epoch totals [0, 5] the stored best loss after
epoch 1 is 5 (at epoch 2), not min(L0, L1) = 0: the zero best loss was
treated as unset by the `not best_loss` guard and overwritten. -/
theorem C1_counterexample :
    (trainBest [(0 : Rat), 5]).1 = some 5 ∧ listMin [(0 : Rat), 5] = 0 ∧
      (trainBest [(0 : Rat), 5]).1 ≠ some (listMin [(0 : Rat), 5]) := by
  refine ⟨by decide, by decide, by decide⟩

/-! ## The mini-batch loop of `Trainer._train_step`

For each batch the source executes, in order:

    self.optimizer.zero_grad()
    ... recon_losses = [masked_scaled_mse(...) for each active graph]
    if label_preds is not None:
        cls_losses = [classification_loss(...) for each label set]
        curr_losses = recon_losses + cls_losses
        losses = [loss + curr_loss for loss, curr_loss in zip(losses, curr_losses)]
        loss_sum = sum(curr_losses)
    else:
        losses = [loss + curr_loss for loss, curr_loss in zip(losses, recon_losses)]
        loss_sum = sum(recon_losses)
    loss_sum.backward()
    self.optimizer.step()

A batch is modelled by its per-graph reconstruction loss values and its
per-label classification loss values; the optimizer interactions are
modelled as an emitted event trace. -/

/-- Optimizer-facing events emitted while processing one mini-batch. -/
inductive TrainEvent where
  | zeroGrad
  | backward (value : Rat)
  | optStep
  deriving DecidableEq

/-- The active loss terms of one batch (`curr_losses` in the source):
reconstruction terms, followed by classification terms when the model
produced label predictions. -/
def currLosses (hasPreds : Bool) (recon cls : List Rat) : List Rat :=
  if hasPreds then recon ++ cls else recon

/-- The accumulator update `[loss + curr_loss for ... in zip(losses, curr)]`. -/
def accumulateLosses (losses curr : List Rat) : List Rat :=
  (losses.zip curr).map fun p => p.1 + p.2

/-- One iteration of the batch loop: update the `losses` accumulator and emit
the events `zero_grad`, `backward(loss_sum)`, `step` in source order. -/
def batchBody (hasPreds : Bool) (losses : List Rat) (recon cls : List Rat) :
    List Rat × List TrainEvent :=
  let curr := currLosses hasPreds recon cls
  (accumulateLosses losses curr,
   [TrainEvent.zeroGrad, TrainEvent.backward curr.sum, TrainEvent.optStep])

/-- The whole batch loop of `Trainer._train_step`: fold `batchBody` over the
batches, concatenating the emitted event traces. -/
def trainStepLoop (hasPreds : Bool) :
    List Rat → List (List Rat × List Rat) → List Rat × List TrainEvent
  | losses, [] => (losses, [])
  | losses, b :: rest =>
    let r := batchBody hasPreds losses b.1 b.2
    let r2 := trainStepLoop hasPreds r.1 rest
    (r2.1, r.2 ++ r2.2)

theorem accumulateLosses_cons (x y : Rat) (xs ys : List Rat) :
    accumulateLosses (x :: xs) (y :: ys) = (x + y) :: accumulateLosses xs ys := rfl

theorem accumulateLosses_sum (l c : List Rat) (h : l.length = c.length) :
    (accumulateLosses l c).sum = l.sum + c.sum := by
  induction l generalizing c with
  | nil =>
    cases c with
    | nil => simp [accumulateLosses]
    | cons y ys => simp at h
  | cons x xs ih =>
    cases c with
    | nil => simp at h
    | cons y ys =>
      rw [accumulateLosses_cons]
      simp only [List.sum_cons]
      rw [ih ys (by simpa using h)]
      ring

/-- C3: for every mini-batch, the batch's event trace calls `backward` on
exactly `sum(curr_losses)`, and the total added to the `losses` accumulator
by that batch equals that same scalar — so the recorded per-graph and
per-label terms sum to the value backpropagated. -/
theorem C3_recorded_equals_backpropagated (hasPreds : Bool) (losses recon cls : List Rat)
    (hlen : losses.length = (currLosses hasPreds recon cls).length) :
    (batchBody hasPreds losses recon cls).2 =
      [TrainEvent.zeroGrad, TrainEvent.backward (currLosses hasPreds recon cls).sum,
       TrainEvent.optStep] ∧
    (batchBody hasPreds losses recon cls).1.sum =
      losses.sum + (currLosses hasPreds recon cls).sum := by
  refine ⟨rfl, ?_⟩
  exact accumulateLosses_sum losses (currLosses hasPreds recon cls) hlen

/-- C3 witness: a batch with reconstruction losses [1, 2] and classification
loss [4] on a zeroed accumulator of matching length adds exactly 7, the
backpropagated scalar. -/
theorem C3_recorded_equals_backpropagated_witness :
    (batchBody true [0, 0, 0] [(1 : Rat), 2] [4]).2 =
      [TrainEvent.zeroGrad, TrainEvent.backward (currLosses true [(1 : Rat), 2] [4]).sum,
       TrainEvent.optStep] ∧
    (batchBody true [0, 0, 0] [(1 : Rat), 2] [4]).1.sum =
      ([(0 : Rat), 0, 0]).sum + (currLosses true [(1 : Rat), 2] [4]).sum :=
  C3_recorded_equals_backpropagated true [0, 0, 0] [(1 : Rat), 2] [4] (by decide)

/-- C4: across the whole batch loop the emitted trace is exactly, per batch,
`zero_grad; backward(sum of that batch's active losses); step` — in
particular there is exactly one optimizer update per mini-batch and no
separate per-graph or per-label update. -/
theorem C4_one_update_per_batch (hasPreds : Bool) (losses0 : List Rat)
    (batches : List (List Rat × List Rat)) :
    (trainStepLoop hasPreds losses0 batches).2 =
      (batches.map fun b =>
        [TrainEvent.zeroGrad, TrainEvent.backward (currLosses hasPreds b.1 b.2).sum,
         TrainEvent.optStep]).flatten ∧
    (trainStepLoop hasPreds losses0 batches).2.count TrainEvent.optStep = batches.length := by
  induction batches generalizing losses0 with
  | nil => exact ⟨rfl, rfl⟩
  | cons b rest ih =>
    have h := ih (batchBody hasPreds losses0 b.1 b.2).1
    constructor
    · show (batchBody hasPreds losses0 b.1 b.2).2 ++ _ = _
      rw [h.1]
      rfl
    · show ((batchBody hasPreds losses0 b.1 b.2).2 ++
        (trainStepLoop hasPreds (batchBody hasPreds losses0 b.1 b.2).1 rest).2).count
          TrainEvent.optStep = rest.length + 1
      rw [List.count_append, h.2]
      have hc : ((batchBody hasPreds losses0 b.1 b.2).2).count TrainEvent.optStep = 1 := rfl
      rw [hc]
      omega

/-! ## Epoch loss accumulation in `Trainer.train` (sub-sampling branch)

With `sample_size` truthy the epoch body is

    rand_net_idxs = np.random.permutation(len(self.adj))
    idx_split = np.array_split(rand_net_idxs, math.floor(len(self.adj) / self.params.sample_size))
    for rand_idxs in idx_split:
        _, losses = self._train_step(rand_idxs)
        for idx, loss in zip(rand_idxs, losses):
            epoch_losses[idx] += loss
        for idx, loss in enumerate(losses[len(rand_idxs) :]):
            epoch_losses[len(rand_idxs) + idx] = loss
-/

/-- `epoch_losses[i] += v` on a list accumulator. -/
def addAt (acc : List Rat) (i : Nat) (v : Rat) : List Rat :=
  acc.set i (acc.getD i 0 + v)

/-- `epoch_losses[i] = v` on a list accumulator. -/
def setAt (acc : List Rat) (i : Nat) (v : Rat) : List Rat :=
  acc.set i v

/-- The reconstruction write-back loop
`for idx, loss in zip(rand_idxs, losses): epoch_losses[idx] += loss`. -/
def writeRecon : List Rat → List Nat → List Rat → List Rat
  | acc, i :: is, v :: vs => writeRecon (addAt acc i v) is vs
  | acc, _, _ => acc

/-- The classification write-back loop
`for idx, loss in enumerate(rest): epoch_losses[base + idx] = loss`. -/
def writeCls : List Rat → Nat → List Rat → List Rat
  | acc, _, [] => acc
  | acc, base, v :: vs => writeCls (setAt acc base v) (base + 1) vs

/-- The accumulator update performed for ONE restricted pass (one sampled
group of graphs). Note the classification write positions start at
`rand_idxs.length` — the size of the sampled group — exactly as in the
source (`epoch_losses[len(rand_idxs) + idx] = loss`). -/
def applyGroup (acc : List Rat) (rand_idxs : List Nat) (losses : List Rat) : List Rat :=
  writeCls (writeRecon acc rand_idxs losses) rand_idxs.length (losses.drop rand_idxs.length)

/-- One epoch's accumulation in the sub-sampling branch: fold the restricted
passes over the zeroed accumulator, `stepLosses g` being the loss list
returned by `self._train_step(g)`. -/
def epochLossesSampled (numSlots : Nat) (groups : List (List Nat))
    (stepLosses : List Nat → List Rat) : List Rat :=
  groups.foldl (fun acc g => applyGroup acc g (stepLosses g)) (List.replicate numSlots 0)

/-- Section sizes of `np.array_split(arr, k)` on an array of length `n`:
the first `n % k` sections have size `n / k + 1`, the rest `n / k`. -/
def splitSizes (n k : Nat) : List Nat :=
  List.replicate (n % k) (n / k + 1) ++ List.replicate (k - n % k) (n / k)

/-- Cut a list into consecutive chunks of the given sizes. -/
def chunksOfSizes {α : Type} : List Nat → List α → List (List α)
  | [], _ => []
  | s :: ss, l => l.take s :: chunksOfSizes ss (l.drop s)

/-- `np.array_split(l, k)`. -/
def arraySplit {α : Type} (l : List α) (k : Nat) : List (List α) :=
  chunksOfSizes (splitSizes l.length k) l

/-- The slots into which one restricted pass adds reconstruction losses:
the indices paired by `zip(rand_idxs, losses)`. -/
def reconSlots (rand_idxs : List Nat) (losses : List Rat) : List Nat :=
  (rand_idxs.zip losses).map Prod.fst

theorem splitSizes_sum (n k : Nat) (hk : 1 ≤ k) : (splitSizes n k).sum = n := by
  unfold splitSizes
  rw [List.sum_append, List.sum_replicate, List.sum_replicate, smul_eq_mul, smul_eq_mul]
  have hrk : n % k ≤ k := le_of_lt (Nat.mod_lt n hk)
  have hdm := Nat.div_add_mod n k
  rw [Nat.sub_mul]
  have hle : n % k * (n / k) ≤ k * (n / k) := Nat.mul_le_mul_right _ hrk
  have hexp : n % k * (n / k + 1) = n % k * (n / k) + n % k := by ring
  rw [hexp]
  omega

theorem chunksOfSizes_flatten {α : Type} (ss : List Nat) (l : List α) :
    (chunksOfSizes ss l).flatten = l.take ss.sum := by
  induction ss generalizing l with
  | nil => simp [chunksOfSizes]
  | cons s ss ih =>
    show l.take s ++ (chunksOfSizes ss (l.drop s)).flatten = l.take ((s :: ss).sum)
    rw [ih (l.drop s), List.sum_cons, List.take_add]

theorem arraySplit_flatten {α : Type} (l : List α) (k : Nat) (hk : 1 ≤ k) :
    (arraySplit l k).flatten = l := by
  unfold arraySplit
  rw [chunksOfSizes_flatten, splitSizes_sum _ _ hk, List.take_length]

/-- C2 failing input (code bug): with 4 graphs, one label set, and the epoch
partitioned into groups [0,1] and [2,3] (each `_train_step` returning
reconstruction losses 1, 1 and classification loss 7), the classification
loss is written at slot `len(rand_idxs) + 0 = 2` — a graph slot — leaving
the tail slot 4 untouched and clobbering graph 2's reconstruction total:
the code produces [1, 1, 7, 1, 0] where the spec demands [1, 1, 1, 1, 7]. -/
theorem C2_cls_written_at_group_size :
    epochLossesSampled 5 [[0, 1], [2, 3]] (fun _ => [1, 1, 7]) = [1, 1, 7, 1, 0] ∧
    epochLossesSampled 5 [[0, 1], [2, 3]] (fun _ => [1, 1, 7]) ≠ [1, 1, 1, 1, 7] := by
  have h : epochLossesSampled 5 [[0, 1], [2, 3]] (fun _ => [1, 1, 7]) = [1, 1, 7, 1, 0] := by
    show applyGroup (applyGroup (List.replicate 5 0) [0, 1] [1, 1, 7]) [2, 3] [1, 1, 7]
        = [1, 1, 7, 1, 0]
    norm_num [applyGroup, writeRecon, writeCls, addAt, setAt, List.replicate, List.set,
      List.getD, List.get?, List.drop]
  exact ⟨h, by rw [h]; decide⟩

/-- C6: when an epoch's permutation of the `G` graph indices is split by
`np.array_split` into `G / S` groups (at least one group), the
reconstruction-loss slots written across all restricted passes of the epoch
— the indices paired with losses by each pass's write-back loop — form, in
total, exactly a permutation of `[0, G)`: every graph slot is written by
exactly one group. -/
theorem C6_groups_partition (G S : Nat) (perm : List Nat)
    (stepLosses : List Nat → List Rat)
    (hperm : perm.Perm (List.range G)) (hS : 1 ≤ G / S)
    (hlen : ∀ g : List Nat, g.length ≤ (stepLosses g).length) :
    ((arraySplit perm (G / S)).map fun g => reconSlots g (stepLosses g)).flatten.Perm
      (List.range G) := by
  have hone : ∀ g : List Nat, reconSlots g (stepLosses g) = g := fun g =>
    List.map_fst_zip g (stepLosses g) (hlen g)
  have hmap : ∀ gs : List (List Nat),
      gs.map (fun g => reconSlots g (stepLosses g)) = gs := by
    intro gs
    induction gs with
    | nil => rfl
    | cons g rest ih => rw [List.map_cons, hone g, ih]
  rw [hmap, arraySplit_flatten perm (G / S) hS]
  exact hperm

/-- C6 witness: 4 graphs with sample size 2 and epoch permutation
[2, 0, 3, 1]: the two restricted passes together write each reconstruction
slot 0..3 exactly once. -/
theorem C6_groups_partition_witness :
    ((arraySplit [2, 0, 3, 1] (4 / 2)).map fun g =>
      reconSlots g (List.replicate (g.length + 1) 1)).flatten.Perm (List.range 4) :=
  C6_groups_partition 4 2 [2, 0, 3, 1] (fun g => List.replicate (g.length + 1) 1)
    (by decide) (by decide) (fun g => by simp)

/-! ## Epoch loss accumulation in `Trainer.train` (non-sub-sampled branch)

Without sub-sampling the epoch body is

    if self.labels is not None:
        epoch_losses = np.zeros(len(self.adj) + len(self.labels))
    else:
        epoch_losses = np.zeros(len(self.adj))
    ...
    _, losses = self._train_step()
    epoch_losses = [
        ep_loss + b_loss.item() / (len(self.index) / self.params.batch_size)
        for ep_loss, b_loss in zip(epoch_losses, losses)
    ]
-/

/-- Number of slots of the freshly zeroed epoch accumulator:
`len(adj) + len(labels)` when `labels` is not `None`, else `len(adj)`. -/
def numSlots (G : Nat) (labels : Option (List Nat)) : Nat :=
  match labels with
  | none => G
  | some ls => G + ls.length

/-- The non-sub-sampled epoch accumulator: a zeroed array of `ns` slots
combined entrywise with the `_train_step` result `step`, each term divided
by `len(index) / batch_size`. -/
def epochLossesNoSample (ns : Nat) (step : List Rat) (N B : Nat) : List Rat :=
  ((List.replicate ns (0 : Rat)).zip step).map
    fun p => p.1 + p.2 / ((N : Rat) / (B : Rat))

theorem accumulateLosses_length (l c : List Rat) :
    (accumulateLosses l c).length = min l.length c.length := by
  simp [accumulateLosses]

theorem accumulateLosses_getD (l c : List Rat) (h : l.length = c.length) (s : Nat) :
    (accumulateLosses l c).getD s 0 = l.getD s 0 + c.getD s 0 := by
  induction l generalizing c s with
  | nil =>
    cases c with
    | nil => simp [accumulateLosses]
    | cons y ys => simp at h
  | cons x xs ih =>
    cases c with
    | nil => simp at h
    | cons y ys =>
      rw [accumulateLosses_cons]
      cases s with
      | zero => simp
      | succ n =>
        simp only [List.getD_cons_succ]
        exact ih ys (by simpa using h) n

theorem trainStepLoop_entries (hasPreds : Bool) (batches : List (List Rat × List Rat)) :
    ∀ losses0 : List Rat,
      (∀ b ∈ batches, (currLosses hasPreds b.1 b.2).length = losses0.length) →
      (trainStepLoop hasPreds losses0 batches).1.length = losses0.length ∧
      ∀ s : Nat, (trainStepLoop hasPreds losses0 batches).1.getD s 0 =
        losses0.getD s 0 +
          (batches.map fun b => (currLosses hasPreds b.1 b.2).getD s 0).sum := by
  induction batches with
  | nil =>
    intro losses0 _
    exact ⟨rfl, fun s => by simp [trainStepLoop]⟩
  | cons b rest ih =>
    intro losses0 hb
    have hblen : (currLosses hasPreds b.1 b.2).length = losses0.length :=
      hb b (List.mem_cons_self b rest)
    have hacc : (batchBody hasPreds losses0 b.1 b.2).1.length = losses0.length := by
      show (accumulateLosses losses0 (currLosses hasPreds b.1 b.2)).length = losses0.length
      rw [accumulateLosses_length, hblen]
      exact Nat.min_self _
    have ih' := ih (batchBody hasPreds losses0 b.1 b.2).1 (fun b' hb' => by
      rw [hacc]
      exact hb b' (List.mem_cons_of_mem b hb'))
    constructor
    · show (trainStepLoop hasPreds (batchBody hasPreds losses0 b.1 b.2).1 rest).1.length = _
      rw [ih'.1, hacc]
    · intro s
      show (trainStepLoop hasPreds (batchBody hasPreds losses0 b.1 b.2).1 rest).1.getD s 0 = _
      rw [ih'.2 s]
      have hbatch : (batchBody hasPreds losses0 b.1 b.2).1.getD s 0 =
          losses0.getD s 0 + (currLosses hasPreds b.1 b.2).getD s 0 :=
        accumulateLosses_getD losses0 (currLosses hasPreds b.1 b.2) hblen.symm s
      rw [hbatch, List.map_cons, List.sum_cons]
      ring

theorem getD_replicate_zero (n s : Nat) : (List.replicate n (0 : Rat)).getD s 0 = 0 := by
  induction n generalizing s with
  | zero => simp
  | succ m ih =>
    cases s with
    | zero => simp [List.replicate_succ]
    | succ t => simp [List.replicate_succ]

theorem epochLossesNoSample_length (ns : Nat) (step : List Rat) (N B : Nat)
    (h : step.length = ns) : (epochLossesNoSample ns step N B).length = ns := by
  simp [epochLossesNoSample, h]

theorem epochLossesNoSample_getD (step : List Rat) (N B : Nat) :
    ∀ s : Nat, (epochLossesNoSample step.length step N B).getD s 0 =
      step.getD s 0 / ((N : Rat) / (B : Rat)) := by
  induction step with
  | nil => intro s; simp [epochLossesNoSample]
  | cons x xs ih =>
    intro s
    have hcons : epochLossesNoSample (x :: xs).length (x :: xs) N B =
        (x / ((N : Rat) / (B : Rat))) :: epochLossesNoSample xs.length xs N B := by
      show ((List.replicate (xs.length + 1) (0 : Rat)).zip (x :: xs)).map _ = _
      rw [List.replicate_succ]
      simp [epochLossesNoSample]
    rw [hcons]
    cases s with
    | zero => simp
    | succ t => simpa using ih t

/-- C7 (amended): the non-sub-sampled epoch accumulator has
`len(adj) + len(labels)` slots (just `len(adj)` when `labels` is `None`),
starts from zeros each epoch, and every entry equals the sum over the
epoch's batches of that slot's per-batch loss term DIVIDED BY
`len(index) / batch_size` — the code averages over batches (its comment
says "Track average loss across batches") rather than summing. -/
theorem C7_epoch_accumulator (G : Nat) (labels : Option (List Nat)) (hasPreds : Bool)
    (batches : List (List Rat × List Rat)) (N B : Nat)
    (hb : ∀ b ∈ batches, (currLosses hasPreds b.1 b.2).length = numSlots G labels) :
    (epochLossesNoSample (numSlots G labels)
        (trainStepLoop hasPreds (List.replicate (numSlots G labels) 0) batches).1 N B).length
      = numSlots G labels ∧
    ∀ s : Nat,
      (epochLossesNoSample (numSlots G labels)
          (trainStepLoop hasPreds (List.replicate (numSlots G labels) 0) batches).1 N B).getD s 0
        = (batches.map fun b => (currLosses hasPreds b.1 b.2).getD s 0).sum
            / ((N : Rat) / (B : Rat)) := by
  have hrep : (List.replicate (numSlots G labels) (0 : Rat)).length = numSlots G labels :=
    List.length_replicate _ _
  have htsl := trainStepLoop_entries hasPreds batches (List.replicate (numSlots G labels) 0)
    (fun b hbm => by rw [hrep]; exact hb b hbm)
  have hsteplen : (trainStepLoop hasPreds (List.replicate (numSlots G labels) 0) batches).1.length
      = numSlots G labels := by rw [htsl.1, hrep]
  constructor
  · exact epochLossesNoSample_length _ _ N B hsteplen
  · intro s
    have hstepentry : (trainStepLoop hasPreds (List.replicate (numSlots G labels) 0)
        batches).1.getD s 0
        = (batches.map fun b => (currLosses hasPreds b.1 b.2).getD s 0).sum := by
      rw [htsl.2 s, getD_replicate_zero]
      ring
    calc (epochLossesNoSample (numSlots G labels)
          (trainStepLoop hasPreds (List.replicate (numSlots G labels) 0) batches).1 N B).getD s 0
        = (epochLossesNoSample
            (trainStepLoop hasPreds (List.replicate (numSlots G labels) 0) batches).1.length
            (trainStepLoop hasPreds (List.replicate (numSlots G labels) 0) batches).1 N B).getD s 0
          := by rw [hsteplen]
      _ = (trainStepLoop hasPreds (List.replicate (numSlots G labels) 0)
            batches).1.getD s 0 / ((N : Rat) / (B : Rat)) := epochLossesNoSample_getD _ N B s
      _ = (batches.map fun b => (currLosses hasPreds b.1 b.2).getD s 0).sum
            / ((N : Rat) / (B : Rat)) := by rw [hstepentry]

/-- C7 witness: one graph, no labels, two batches each contributing loss 1,
20 nodes with batch size 10: the amended theorem gives slot 0 the value
(1 + 1) / (20 / 10) = 1. -/
theorem C7_epoch_accumulator_witness :
    (epochLossesNoSample (numSlots 1 none)
        (trainStepLoop false (List.replicate (numSlots 1 none) 0)
          [([(1 : Rat)], []), ([1], [])]).1 20 10).getD 0 0 = 1 := by
  have h := C7_epoch_accumulator 1 none false [([(1 : Rat)], []), ([1], [])] 20 10
    (by intro b hbm; fin_cases hbm <;> rfl)
  rw [h.2 0]
  norm_num [currLosses]

/-- C7 counterexample: the entry is NOT the plain sum across batches — two
batches each contributing 1 to the single slot, with 20 nodes and batch
size 10, leave 1 in the accumulator, not 2. -/
theorem C7_counterexample :
    (trainStepLoop false [0] [([(1 : Rat)], []), ([1], [])]).1 = [2] ∧
    epochLossesNoSample 1 [(2 : Rat)] 20 10 = [1] ∧
    epochLossesNoSample 1 [(2 : Rat)] 20 10 ≠ [(2 : Rat)] := by
  have h1 : (trainStepLoop false [0] [([(1 : Rat)], []), ([1], [])]).1 = [2] := by
    norm_num [trainStepLoop, batchBody, currLosses, accumulateLosses]
  have h2 : epochLossesNoSample 1 [(2 : Rat)] 20 10 = [1] := by
    norm_num [epochLossesNoSample]
  exact ⟨h1, h2, by rw [h2]; decide⟩

/-! ## Inference-time parameter selection (`Trainer.forward`)

The source begins inference with

    if self.labels is None:
        self.model.load_state_dict(self.best_state["state_dict"])

so the best-checkpoint snapshot is restored exactly when `labels` is `None`;
in every other case the model keeps its end-of-training parameters.
`labels` is modelled as `Option (List Nat)`, an entry per label set holding
its class count (`label.shape[1]`). -/

/-- Parameter state `Trainer.forward` runs inference with. -/
def forwardParams {P : Type} (labels : Option (List Nat)) (bestParams finalParams : P) : P :=
  match labels with
  | none => bestParams
  | some _ => finalParams

/-- The inference-branch test `if self.labels is None`. -/
def forwardRestoresBest (labels : Option (List Nat)) : Bool :=
  labels.isNone

/-- The model-construction test of `Trainer._init_model` is Python
truthiness, `if self.labels:`, giving per-label class counts `n_classes`
and `None` both when `labels` is `None` and when it is the empty list. -/
def nClasses (labels : Option (List Nat)) : Option (List Nat) :=
  match labels with
  | none => none
  | some ls => if ls.isEmpty then none else some ls

/-- C5: `Trainer.forward` resets the model parameters to the
best-checkpoint snapshot exactly when no supervised labels were configured
(`labels is None`); when labels exist, inference uses the final
post-training parameter state. -/
theorem C5_forward_uses_best_iff_unlabeled (P : Type) (labels : Option (List Nat))
    (best final : P) :
    (labels = none → forwardParams labels best final = best) ∧
    (labels ≠ none → forwardParams labels best final = final) := by
  constructor
  · intro h
    rw [h]
    rfl
  · intro h
    cases labels with
    | none => exact absurd rfl h
    | some ls => rfl

/-- C5 witness: with parameter states tagged 1 (best) and 2 (final),
inference uses 1 when `labels = none` and 2 when one label set exists. -/
theorem C5_forward_uses_best_iff_unlabeled_witness :
    forwardParams (P := Nat) none 1 2 = 1 ∧ forwardParams (P := Nat) (some [4]) 1 2 = 2 :=
  ⟨(C5_forward_uses_best_iff_unlabeled Nat none 1 2).1 rfl,
   (C5_forward_uses_best_iff_unlabeled Nat (some [4]) 1 2).2 (by simp)⟩

/-- C10: when preprocessing yields `labels = []` (non-None but falsy), the
truthiness test of `_init_model` yields `n_classes = None` (no
classification heads), yet the `is None` test of `forward` is false, so the
best snapshot is NOT restored: the two tests disagree exactly there. -/
theorem C10_empty_labels_disagreement :
    nClasses (some ([] : List Nat)) = none ∧
    forwardRestoresBest (some ([] : List Nat)) = false ∧
    forwardParams (P := Nat) (some ([] : List Nat)) 1 2 = 2 ∧
    nClasses none = none ∧ forwardRestoresBest none = true := by
  refine ⟨rfl, rfl, rfl, rfl, rfl⟩

/-! ## Weight initialization (`Trainer._init_model_weights`)

`_init_model` builds the `Bionic` model and immediately runs
`model.apply(self._init_model_weights)` — inside `Trainer.__init__`, before
`train()` can run any step. The initializer raises `ValueError` on any
module with a `weight` attribute when the configured scheme is neither
"kaiming" nor "xavier"; nothing catches or retries it. A module is
modelled by whether it has a `weight` attribute. -/

/-- `Trainer._init_model_weights` on one module. -/
def initWeights (scheme : String) (hasWeight : Bool) : Except String Unit :=
  if hasWeight then
    if scheme = "kaiming" then Except.ok ()
    else if scheme = "xavier" then Except.ok ()
    else Except.error ("The initialization scheme " ++ scheme ++ " provided is not supported")
  else Except.ok ()

/-- `model.apply(self._init_model_weights)`: visit every module in order,
aborting at the first raise. -/
def applyInitWeights (scheme : String) : List Bool → Except String Unit
  | [] => Except.ok ()
  | m :: rest =>
    match initWeights scheme m with
    | Except.error e => Except.error e
    | Except.ok _ => applyInitWeights scheme rest

/-- `Trainer` construction followed by `train()`: weight initialization
happens during construction, so an initialization error is the run's final
outcome and the batch loop (with the trace it would emit) never executes. -/
def trainerRun (scheme : String) (modules : List Bool) (hasPreds : Bool)
    (losses0 : List Rat) (batches : List (List Rat × List Rat)) :
    Except String (List Rat × List TrainEvent) :=
  match applyInitWeights scheme modules with
  | Except.error e => Except.error e
  | Except.ok _ => Except.ok (trainStepLoop hasPreds losses0 batches)

/-- C9: any initialization scheme other than "kaiming" or "xavier", applied
to a model with at least one weighted module, makes the whole run fail with
the `ValueError` from `_init_model_weights` — during model construction,
before any training step executes, uncaught. -/
theorem C9_bad_scheme_fails_fast (scheme : String) (modules : List Bool) (hasPreds : Bool)
    (losses0 : List Rat) (batches : List (List Rat × List Rat))
    (hk : scheme ≠ "kaiming") (hx : scheme ≠ "xavier") (hw : true ∈ modules) :
    trainerRun scheme modules hasPreds losses0 batches =
      Except.error ("The initialization scheme " ++ scheme ++ " provided is not supported") := by
  have happly : applyInitWeights scheme modules =
      Except.error ("The initialization scheme " ++ scheme ++ " provided is not supported") := by
    induction modules with
    | nil => cases hw
    | cons m rest ih =>
      cases m with
      | true =>
        show (match initWeights scheme true with
          | Except.error e => Except.error e
          | Except.ok _ => applyInitWeights scheme rest) = _
        rw [show initWeights scheme true =
            Except.error ("The initialization scheme " ++ scheme ++ " provided is not supported")
          from by simp [initWeights, hk, hx]]
      | false =>
        show applyInitWeights scheme rest = _
        exact ih (by simpa using hw)
  show (match applyInitWeights scheme modules with
    | Except.error e => Except.error e
    | Except.ok _ => Except.ok (trainStepLoop hasPreds losses0 batches)) = _
  rw [happly]

/-- C9 witness: scheme "uniform" on a model whose second module has a
`weight` attribute aborts the run with the unsupported-scheme error. -/
theorem C9_bad_scheme_fails_fast_witness :
    trainerRun "uniform" [false, true] false [] [([(1 : Rat)], [])] =
      Except.error ("The initialization scheme " ++ "uniform" ++ " provided is not supported") :=
  C9_bad_scheme_fails_fast "uniform" [false, true] false [] [([(1 : Rat)], [])]
    (by decide) (by decide) (by decide)

/-! ## The epoch loop of `Trainer.train` (non-sub-sampled, composed)

Each epoch zeroes the accumulator, runs `_train_step` over the epoch's
batches, scales by `len(index) / batch_size`, appends the result to
`train_loss` and updates the best snapshot with the epoch total. -/

/-- The epoch loop: returns `(train_loss, (best_loss, best_state))`.
`epochBatches e` gives epoch `e`'s batches (per-graph reconstruction and
per-label classification loss values). -/
def trainNoSample (G : Nat) (labels : Option (List Nat)) (N B : Nat) (hasPreds : Bool)
    (epochBatches : Nat → List (List Rat × List Rat)) (epochs : Nat) :
    List (List Rat) × (Option Rat × Option BestState) :=
  (List.range epochs).foldl
    (fun st e =>
      let el := epochLossesNoSample (numSlots G labels)
        (trainStepLoop hasPreds (List.replicate (numSlots G labels) 0) (epochBatches e)).1 N B
      (st.1 ++ [el], bestStep e el.sum st.2))
    ([], (none, none))

theorem trainNoSample_two (G : Nat) (labels : Option (List Nat)) (N B : Nat) (hasPreds : Bool)
    (eb : Nat → List (List Rat × List Rat)) :
    trainNoSample G labels N B hasPreds eb 2 =
      ([epochLossesNoSample (numSlots G labels)
          (trainStepLoop hasPreds (List.replicate (numSlots G labels) 0) (eb 0)).1 N B,
        epochLossesNoSample (numSlots G labels)
          (trainStepLoop hasPreds (List.replicate (numSlots G labels) 0) (eb 1)).1 N B],
       bestStep 1 (epochLossesNoSample (numSlots G labels)
           (trainStepLoop hasPreds (List.replicate (numSlots G labels) 0) (eb 1)).1 N B).sum
         (bestStep 0 (epochLossesNoSample (numSlots G labels)
             (trainStepLoop hasPreds (List.replicate (numSlots G labels) 0) (eb 0)).1 N B).sum
           (none, none))) := rfl

theorem bestStep_two_epochs (s1 s2 : Rat) :
    ∃ bs : BestState, (bestStep 1 s2 (bestStep 0 s1 (none, none))).2 = some bs ∧
      (bs.epoch = 1 ∨ bs.epoch = 2) := by
  have h0 : bestStep 0 s1 (none, none) = (some s1, some ⟨1, s1⟩) := by
    simp [bestStep, bestUpdateCond]
  rw [h0]
  by_cases h : bestUpdateCond (some s1) s2 = true
  · exact ⟨⟨2, s2⟩, by simp [bestStep, h], Or.inr rfl⟩
  · exact ⟨⟨1, s1⟩, by simp [bestStep, h], Or.inl rfl⟩

/-- C8: in the scenario with 3 graphs of 10 nodes, no labels,
`sample_size=None`, `epochs=2`, `batch_size=10` (hence one batch per epoch,
with one reconstruction loss term `f e g` per graph `g`), training leaves
`train_loss` of length 2, every entry of length 3, and a best snapshot
whose 1-based epoch is 1 or 2 — for every possible loss outcome `f`. -/
theorem C8_three_graph_scenario (f : Nat → Nat → Rat) :
    (trainNoSample 3 none 10 10 false (fun e => [((List.range 3).map (f e), [])]) 2).1.length = 2 ∧
    (∀ el ∈ (trainNoSample 3 none 10 10 false (fun e => [((List.range 3).map (f e), [])]) 2).1,
      el.length = 3) ∧
    ∃ bs : BestState,
      (trainNoSample 3 none 10 10 false
          (fun e => [((List.range 3).map (f e), [])]) 2).2.2 = some bs ∧
      (bs.epoch = 1 ∨ bs.epoch = 2) := by
  have hlen : ∀ e : Nat,
      (epochLossesNoSample (numSlots 3 none)
        (trainStepLoop false (List.replicate (numSlots 3 none) 0)
          [((List.range 3).map (f e), [])]).1 10 10).length = 3 := by
    intro e
    have hb : ∀ b ∈ [((List.range 3).map (f e), ([] : List Rat))],
        (currLosses false b.1 b.2).length =
          (List.replicate (numSlots 3 none) (0 : Rat)).length := by
      intro b hbm
      rw [List.mem_singleton.mp hbm]
      simp [currLosses, numSlots]
    have h := trainStepLoop_entries false [((List.range 3).map (f e), [])]
      (List.replicate (numSlots 3 none) 0) hb
    exact epochLossesNoSample_length _ _ 10 10 (by rw [h.1]; simp [numSlots])
  rw [trainNoSample_two]
  refine ⟨rfl, ?_, bestStep_two_epochs _ _⟩
  intro el hel
  rcases List.mem_cons.mp hel with h | h
  · rw [h]; exact hlen 0
  · rw [List.mem_singleton.mp h]; exact hlen 1

end Bionic
